import Mathlib

/-!
Verification development for the github-download-folder CLI (src/index.ts).

The program's data and operations are shallowly embedded over `List Char`
(JS strings).  `parseGitHubUrlL` embeds `parseGitHubUrl` (lines 42-77),
`targetGuard` embeds the output-path probe (lines 114-133), `processEntry` /
`runExtraction` embed the per-entry extraction loop (lines 144-174), and
`downloadFolder` embeds the guard-then-extract-then-report sequencing
(lines 114-183).  The three JS regexes are embedded as deterministic
matchers implementing their exact backtracking semantics (leftmost match,
greedy character classes, lazy dot-plus groups, greedy optional groups,
JS dot not matching a newline).
-/

namespace GhDlFolder

/-- JS word class `[\w.-]` used by the shorthand regex: ASCII alphanumerics,
underscore, dot, dash. -/
def isWordClass (c : Char) : Bool :=
  c.isAlpha || c.isDigit || c = '_' || c = '.' || c = '-'

/-- JS `.` matches any character except a newline. -/
def notNewline (c : Char) : Bool := c != '\n'

/-- Result of `parseGitHubUrl`, over `List Char`. -/
structure ParsedL where
  owner : List Char
  repo : List Char
  branch : Option (List Char)
  subfolder : Option (List Char)
deriving DecidableEq

/-- Match a literal character sequence at the front and return the remainder
(the compiled form of a regex literal). -/
def dropLit : List Char → List Char → Option (List Char)
  | [], l => some l
  | _ :: _, [] => none
  | p :: ps, c :: cs => if c = p then dropLit ps cs else none

/-- The literal `https://github.com/` opening the tree-URL regex. -/
def httpsLit : List Char :=
  ['h','t','t','p','s',':','/','/','g','i','t','h','u','b','.','c','o','m','/']

/-- The ten word characters of `github.com` (the shorthand owner run stops at
the following slash). -/
def ghWord : List Char := ['g','i','t','h','u','b','.','c','o','m']

/-- The literal `github.com/` opening the generic (unanchored) regex. -/
def ghLit : List Char := 'g' :: ['i','t','h','u','b','.','c','o','m','/']

/-- The literal `tree/` of the tree-URL regex. -/
def treeLit : List Char := ['t','r','e','e','/']

/-- The literal `.git` of the generic regex's optional group. -/
def gitLit : List Char := ['.','g','i','t']

/-- `^https:\/\/github\.com\/([^\/]+)\/([^\/]+)\/tree\/([^\/]+)\/(.+)$`
(line 50, tried first).  Each `[^/]+` is a greedy nonempty run of
non-slash characters followed by a literal slash, and `(.+)$` is a
nonempty newline-free remainder. -/
def treeMatchL (l : List Char) : Option ParsedL :=
  match dropLit httpsLit l with
  | none => none
  | some t =>
    let owner := t.takeWhile (fun c => c != '/')
    let t1 := t.drop owner.length
    if t1.head? = some '/' then
      let t2 := t1.tail
      let repo := t2.takeWhile (fun c => c != '/')
      let t3 := t2.drop repo.length
      if t3.head? = some '/' then
        match dropLit treeLit t3.tail with
        | none => none
        | some t4 =>
          let branch := t4.takeWhile (fun c => c != '/')
          let t5 := t4.drop branch.length
          if t5.head? = some '/' then
            if owner ≠ [] ∧ repo ≠ [] ∧ branch ≠ [] ∧ t5.tail ≠ [] ∧
               t5.tail.all notNewline then
              some ⟨owner, repo, some branch, some t5.tail⟩
            else none
          else none
      else none
    else none

/-- `^([\w.-]+)\/([\w.-]+)(?:#(.+))?$` (line 48, tried second).  The two
class runs are greedy; the optional fragment is a nonempty newline-free
branch after `#`. -/
def shorthandMatchL (l : List Char) : Option ParsedL :=
  let owner := l.takeWhile isWordClass
  let t1 := l.drop owner.length
  if owner ≠ [] ∧ t1.head? = some '/' then
    let t2 := t1.tail
    let repo := t2.takeWhile isWordClass
    let t3 := t2.drop repo.length
    if repo = [] then none
    else if t3 = [] then some ⟨owner, repo, none, none⟩
    else if t3.head? = some '#' then
      if t3.tail ≠ [] ∧ t3.tail.all notNewline then
        some ⟨owner, repo, some t3.tail, none⟩
      else none
    else none
  else none

/-- The tail `(?:\.git)?(?:#(.+))?$` without the leading `.git` attempt:
either the end of input, or `#` followed by a nonempty newline-free branch
reaching the end.  Returns the captured branch. -/
def hashTailL : List Char → Option (Option (List Char))
  | [] => some none
  | c :: rest =>
    if c = '#' ∧ rest ≠ [] ∧ rest.all notNewline then some (some rest)
    else none

/-- The tail `(?:\.git)?(?:#(.+))?$` of the generic regex: the greedy
optional group first tries to consume `.git`, backtracking to the empty
alternative when the rest fails. -/
def tailMatchL (l : List Char) : Option (Option (List Char)) :=
  if gitLit.isPrefixOf l then
    match hashTailL (l.drop 4) with
    | some b => some b
    | none => hashTailL l
  else hashTailL l

/-- Lazy `(.+?)` for the repo group: the shortest nonempty newline-free
prefix whose remainder matches the tail pattern.  `acc` is the part of the
repo already committed. -/
def repoScanL : List Char → List Char → Option (List Char × Option (List Char))
  | [], _ => none
  | c :: rest, acc =>
    if c = '\n' then none
    else
      match tailMatchL rest with
      | some b => some (acc ++ [c], b)
      | none => repoScanL rest (acc ++ [c])

/-- Lazy `(.+?)` for the owner group followed by the literal slash: the
owner grows one character at a time (it may swallow slashes when forced);
after each growth step, if the next character is a slash the repo group is
attempted on the remainder. -/
def ownerScanL : List Char → List Char → Option ParsedL
  | [], _ => none
  | c :: rest, acc =>
    if c = '\n' then none
    else if rest.head? = some '/' then
      match repoScanL rest.tail [] with
      | some (r, b) => some ⟨acc ++ [c], r, b, none⟩
      | none => ownerScanL rest (acc ++ [c])
    else ownerScanL rest (acc ++ [c])

/-- `github\.com\/(.+?)\/(.+?)(?:\.git)?(?:#(.+))?$` (line 49, tried third):
unanchored, so the engine tries every start position left to right and the
leftmost position admitting a match wins. -/
def fullRepoSearchL : List Char → Option ParsedL
  | [] => none
  | c :: rest =>
    match dropLit ghLit (c :: rest) with
    | some t =>
      match ownerScanL t [] with
      | some p => some p
      | none => fullRepoSearchL rest
    | none => fullRepoSearchL rest

/-- The error message thrown when no pattern matches (line 76). -/
def invalidMsg : List Char :=
  ("Invalid GitHub repo format. Use owner/repo[#branch] or full GitHub folder URL.").data

/-- `parseGitHubUrl` (lines 42-77): the tree-URL pattern, then the
shorthand pattern, then the generic pattern; the first match wins;
otherwise the invalid-format error is thrown. -/
def parseGitHubUrlL (input : List Char) : Except (List Char) ParsedL :=
  match treeMatchL input with
  | some p => Except.ok p
  | none =>
    match shorthandMatchL input with
    | some p => Except.ok p
    | none =>
      match fullRepoSearchL input with
      | some p => Except.ok p
      | none => Except.error invalidMsg

/-- Result of `parseGitHubUrl`, over `String`. -/
structure Parsed where
  owner : String
  repo : String
  branch : Option String
  subfolder : Option String
deriving DecidableEq

/-- String-level wrapper of `parseGitHubUrlL`, mirroring the source
signature. -/
def parseGitHubUrl (input : String) : Except String Parsed :=
  match parseGitHubUrlL input.data with
  | Except.ok p =>
      Except.ok ⟨⟨p.owner⟩, ⟨p.repo⟩, p.branch.map (⟨·⟩), p.subfolder.map (⟨·⟩)⟩
  | Except.error m => Except.error ⟨m⟩

/-! ## Streaming filter-extractor (lines 138-183) -/

/-- An archive entry's type, as reported by the ZIP stream. -/
inductive EntryType
  | file
  | directory
deriving DecidableEq

/-- One archive entry: its recorded path and its type. -/
structure Entry where
  path : List Char
  kind : EntryType
deriving DecidableEq

/-- JS `s.replace(pat, '')` with a string pattern removes only the first
occurrence of `pat` (used at lines 147 and 154). -/
def removeFirst (pat : List Char) : List Char → List Char
  | [] => []
  | c :: rest =>
    if pat.isPrefixOf (c :: rest) then (c :: rest).drop pat.length
    else c :: removeFirst pat rest

/-- `subfolder.replace(/\/$/, '')` (line 142): remove a single trailing
slash. -/
def stripTrailingSlash (l : List Char) : List Char :=
  if l.getLast? = some '/' then l.dropLast else l

/-- `path.join(outputDir, rel)` for the already-relative remainders this
program produces: the output directory itself when the remainder is empty,
otherwise the remainder attached under one separator. -/
def joinPath (out rel : List Char) : List Char :=
  if rel = [] then out else out ++ '/' :: rel

/-- `path.dirname` for the paths this program produces. -/
def dirname (l : List Char) : List Char :=
  match l.reverse.dropWhile (fun c => c != '/') with
  | [] => ['.']
  | _ :: rest => if rest = [] then ['/'] else rest.reverse

/-- The in-scope test of lines 149-152: the (prefix-stripped) path equals
the normalized subfolder exactly, or extends it past a slash. -/
def inScope (sub rel : List Char) : Bool :=
  rel == sub || (sub ++ ['/']).isPrefixOf rel

/-- Destination computation of line 154: remove the first occurrence of
`sub ++ "/"` from the relative path and join onto the output directory. -/
def destPath (out sub rel : List Char) : List Char :=
  joinPath out (removeFirst (sub ++ ['/']) rel)

/-- Mutable state of the extraction loop: the two counters of lines 139-140
plus the observable filesystem effects (successful file writes, ensured
directories) and the per-entry failure warnings of line 172. -/
structure ExtractState where
  filesExtracted : Nat
  matchedSomething : Bool
  writes : List (List Char)
  dirsEnsured : List (List Char)
  warnings : List (List Char)
deriving DecidableEq

/-- State when the loop starts: counters cleared, the output directory
itself already ensured (line 136). -/
def initState (out : List Char) : ExtractState :=
  ⟨0, false, [], [out], []⟩

/-- One iteration of the `for await` loop (lines 144-174).  `fsOk` tells
whether streaming an entry's content to a given destination path succeeds;
a failed write is caught by the per-entry try/catch, which records a
warning for the entry and continues (the counter is not incremented).
Out-of-scope entries are autodrained: no state change. -/
def processEntry (pre sub out : List Char) (fsOk : List Char → Bool)
    (st : ExtractState) (e : Entry) : ExtractState :=
  let rel := removeFirst pre e.path
  if inScope sub rel then
    let localPath := destPath out sub rel
    match e.kind with
    | EntryType.directory =>
        { st with matchedSomething := true,
                  dirsEnsured := st.dirsEnsured ++ [localPath] }
    | EntryType.file =>
        if fsOk localPath then
          { st with matchedSomething := true,
                    dirsEnsured := st.dirsEnsured ++ [dirname localPath],
                    writes := st.writes ++ [localPath],
                    filesExtracted := st.filesExtracted + 1 }
        else
          { st with matchedSomething := true,
                    dirsEnsured := st.dirsEnsured ++ [dirname localPath],
                    warnings := st.warnings ++ [e.path] }
  else st

/-- The whole entry loop over the archive stream. -/
def runExtraction (pre sub out : List Char) (fsOk : List Char → Bool)
    (entries : List Entry) : ExtractState :=
  entries.foldl (processEntry pre sub out fsOk) (initState out)

/-- The in-scope test lifted to an entry (prefix stripping included). -/
def inScopeEntry (pre sub : List Char) (e : Entry) : Bool :=
  inScope sub (removeFirst pre e.path)

/-- The destination an entry is written to. -/
def entryDest (pre sub out : List Char) (e : Entry) : List Char :=
  destPath out sub (removeFirst pre e.path)

/-- Is `e` an in-scope file entry whose write succeeds? -/
def okFileWrite (pre sub out : List Char) (fsOk : List Char → Bool)
    (e : Entry) : Bool :=
  inScopeEntry pre sub e && (e.kind == EntryType.file) &&
    fsOk (entryDest pre sub out e)

/-- Is `e` an in-scope file entry whose write fails? -/
def failFileWrite (pre sub out : List Char) (fsOk : List Char → Bool)
    (e : Entry) : Bool :=
  inScopeEntry pre sub e && (e.kind == EntryType.file) &&
    !(fsOk (entryDest pre sub out e))

/-- The directories one entry causes to be ensured. -/
def ensuredDirsOf (pre sub out : List Char) (e : Entry) : List (List Char) :=
  if inScopeEntry pre sub e then
    match e.kind with
    | EntryType.directory => [entryDest pre sub out e]
    | EntryType.file => [dirname (entryDest pre sub out e)]
  else []

/-- The directories a list of entries causes to be ensured, in order. -/
def ensuredDirs (pre sub out : List Char) : List Entry → List (List Char)
  | [] => []
  | e :: es => ensuredDirsOf pre sub out e ++ ensuredDirs pre sub out es

/-! ## Target guard and run outcome (lines 111-183) -/

/-- What probing the output path can observe: a regular file, a directory
with the listed names, a not-found error, or some other stat error. -/
inductive TargetStat
  | isFile
  | isDir (names : List (List Char))
  | enoent
  | statError (msg : List Char)
deriving DecidableEq

/-- The run's reported result. -/
inductive RunResult
  | success (filesExtracted : Nat)
  | targetIsFile
  | targetNotEmpty
  | targetProbeError (msg : List Char)
  | subfolderNotFound
deriving DecidableEq

/-- The target guard (lines 114-133): a regular file fails, a non-empty
directory fails, an empty directory proceeds, ENOENT proceeds, any other
stat error fails with the underlying message. -/
def targetGuard : TargetStat → Option RunResult
  | TargetStat.isFile => some RunResult.targetIsFile
  | TargetStat.isDir names =>
      if names.length > 0 then some RunResult.targetNotEmpty else none
  | TargetStat.enoent => none
  | TargetStat.statError m => some (RunResult.targetProbeError m)

/-- The run's outcome: the reported result plus the extraction state (all
filesystem effects issued). -/
structure RunOutcome where
  result : RunResult
  state : ExtractState
deriving DecidableEq

/-- State when the run aborts before the loop: no effect was issued. -/
def emptyState : ExtractState := ⟨0, false, [], [], []⟩

/-- Every failure path sets `process.exitCode = 1`; success leaves it 0. -/
def exitIndicator : RunResult → Nat
  | RunResult.success _ => 0
  | _ => 1

/-- The extraction phase (lines 135-183): build the archive prefix
`repo + "-" + branch + "/"` (line 103), normalize the subfolder (line 142),
run the loop, then report `subfolderNotFound` when nothing matched
(lines 176-181) and success with the file count otherwise (line 183). -/
def extractPhase (repo branch subfolder out : List Char)
    (fsOk : List Char → Bool) (entries : List Entry) : RunOutcome :=
  let pre := repo ++ '-' :: (branch ++ ['/'])
  let sub := stripTrailingSlash subfolder
  let st := runExtraction pre sub out fsOk entries
  if st.matchedSomething then ⟨RunResult.success st.filesExtracted, st⟩
  else ⟨RunResult.subfolderNotFound, st⟩

/-- `downloadFolder` after a successful archive fetch: the target guard
runs first (lines 114-133) and aborts with no filesystem effect on
failure; otherwise the extraction phase runs. -/
def downloadFolder (repo branch subfolder out : List Char)
    (tstat : TargetStat) (fsOk : List Char → Bool)
    (entries : List Entry) : RunOutcome :=
  match targetGuard tstat with
  | some r => ⟨r, emptyState⟩
  | none => extractPhase repo branch subfolder out fsOk entries

end GhDlFolder

namespace GhDlFolder

/-! ## List helper lemmas -/

theorem dropLit_append (p l : List Char) : dropLit p (p ++ l) = some l := by
  induction p with
  | nil => rfl
  | cons c cs ih => simp [dropLit, ih]

theorem takeWhile_app (p : Char → Bool) (O : List Char) (c : Char)
    (rest : List Char) (hO : ∀ a ∈ O, p a = true) (hc : p c = false) :
    (O ++ c :: rest).takeWhile p = O := by
  induction O with
  | nil => simp [List.takeWhile_cons, hc]
  | cons a O ih =>
      have ha := hO a (List.mem_cons_self a O)
      simp only [List.cons_append, List.takeWhile_cons, ha, if_true]
      rw [ih (fun b hb => hO b (List.mem_cons_of_mem a hb))]

theorem takeWhile_full (p : Char → Bool) (l : List Char)
    (h : ∀ a ∈ l, p a = true) : l.takeWhile p = l := by
  induction l with
  | nil => rfl
  | cons a l ih =>
      have ha := h a (List.mem_cons_self a l)
      simp only [List.takeWhile_cons, ha, if_true]
      rw [ih (fun b hb => h b (List.mem_cons_of_mem a hb))]

theorem removeFirst_of_isPrefixOf (pat l : List Char)
    (h : pat.isPrefixOf l = true) : removeFirst pat l = l.drop pat.length := by
  cases l with
  | nil =>
      have : pat = [] := by
        cases pat with
        | nil => rfl
        | cons a as => simp [List.isPrefixOf] at h
      subst this; rfl
  | cons c rest => simp [removeFirst, h]

theorem removeFirst_of_short (pat l : List Char)
    (h : l.length < pat.length) : removeFirst pat l = l := by
  induction l with
  | nil => rfl
  | cons c rest ih =>
      have hp : pat.isPrefixOf (c :: rest) = false := by
        rcases hb : pat.isPrefixOf (c :: rest) with _ | _
        · rfl
        · exfalso
          have := List.IsPrefix.length_le (List.isPrefixOf_iff_prefix.mp hb)
          simp at this h; omega
      have : rest.length < pat.length := by simp at h; omega
      simp [removeFirst, hp, ih this]

/-! ## Per-entry and loop lemmas for the extractor -/

theorem processEntry_filesExtracted (pre sub out : List Char)
    (fsOk : List Char → Bool) (st : ExtractState) (e : Entry) :
    (processEntry pre sub out fsOk st e).filesExtracted =
      st.filesExtracted +
        (if okFileWrite pre sub out fsOk e then 1 else 0) := by
  unfold processEntry okFileWrite inScopeEntry entryDest
  by_cases h1 : inScope sub (removeFirst pre e.path)
  · cases hk : e.kind with
    | file =>
        by_cases h2 : fsOk (destPath out sub (removeFirst pre e.path)) <;>
          simp [h1, hk, h2]
    | directory => simp [h1, hk]
  · simp [h1]

theorem processEntry_matched (pre sub out : List Char)
    (fsOk : List Char → Bool) (st : ExtractState) (e : Entry) :
    (processEntry pre sub out fsOk st e).matchedSomething =
      (st.matchedSomething || inScopeEntry pre sub e) := by
  unfold processEntry inScopeEntry
  by_cases h1 : inScope sub (removeFirst pre e.path)
  · cases hk : e.kind with
    | file =>
        by_cases h2 : fsOk (destPath out sub (removeFirst pre e.path)) <;>
          simp [h1, hk, h2]
    | directory => simp [h1, hk]
  · simp [h1]

theorem processEntry_writes (pre sub out : List Char)
    (fsOk : List Char → Bool) (st : ExtractState) (e : Entry) :
    (processEntry pre sub out fsOk st e).writes =
      st.writes ++
        (if okFileWrite pre sub out fsOk e then [entryDest pre sub out e]
         else []) := by
  unfold processEntry okFileWrite inScopeEntry entryDest
  by_cases h1 : inScope sub (removeFirst pre e.path)
  · cases hk : e.kind with
    | file =>
        by_cases h2 : fsOk (destPath out sub (removeFirst pre e.path)) <;>
          simp [h1, hk, h2]
    | directory => simp [h1, hk]
  · simp [h1]

theorem processEntry_warnings (pre sub out : List Char)
    (fsOk : List Char → Bool) (st : ExtractState) (e : Entry) :
    (processEntry pre sub out fsOk st e).warnings =
      st.warnings ++
        (if failFileWrite pre sub out fsOk e then [e.path] else []) := by
  unfold processEntry failFileWrite inScopeEntry entryDest
  by_cases h1 : inScope sub (removeFirst pre e.path)
  · cases hk : e.kind with
    | file =>
        by_cases h2 : fsOk (destPath out sub (removeFirst pre e.path)) <;>
          simp [h1, hk, h2]
    | directory => simp [h1, hk]
  · simp [h1]

theorem processEntry_dirsEnsured (pre sub out : List Char)
    (fsOk : List Char → Bool) (st : ExtractState) (e : Entry) :
    (processEntry pre sub out fsOk st e).dirsEnsured =
      st.dirsEnsured ++ ensuredDirsOf pre sub out e := by
  unfold processEntry ensuredDirsOf inScopeEntry entryDest
  by_cases h1 : inScope sub (removeFirst pre e.path)
  · cases hk : e.kind with
    | file =>
        by_cases h2 : fsOk (destPath out sub (removeFirst pre e.path)) <;>
          simp [h1, hk, h2]
    | directory => simp [h1, hk]
  · simp [h1]

theorem processEntry_skip (pre sub out : List Char)
    (fsOk : List Char → Bool) (st : ExtractState) (e : Entry)
    (h : inScopeEntry pre sub e = false) :
    processEntry pre sub out fsOk st e = st := by
  unfold processEntry
  unfold inScopeEntry at h
  simp [h]

theorem foldl_filesExtracted (pre sub out : List Char)
    (fsOk : List Char → Bool) (entries : List Entry) :
    ∀ st : ExtractState,
      (entries.foldl (processEntry pre sub out fsOk) st).filesExtracted =
        st.filesExtracted + entries.countP (okFileWrite pre sub out fsOk) := by
  induction entries with
  | nil => intro st; simp
  | cons e es ih =>
      intro st
      rw [List.foldl_cons, ih, processEntry_filesExtracted,
        List.countP_cons]
      by_cases h : okFileWrite pre sub out fsOk e <;> (simp [h]; try omega)

theorem foldl_matched (pre sub out : List Char)
    (fsOk : List Char → Bool) (entries : List Entry) :
    ∀ st : ExtractState,
      (entries.foldl (processEntry pre sub out fsOk) st).matchedSomething =
        (st.matchedSomething || entries.any (inScopeEntry pre sub)) := by
  induction entries with
  | nil => intro st; simp
  | cons e es ih =>
      intro st
      rw [List.foldl_cons, ih, processEntry_matched, List.any_cons,
        Bool.or_assoc]

theorem foldl_writes (pre sub out : List Char)
    (fsOk : List Char → Bool) (entries : List Entry) :
    ∀ st : ExtractState,
      (entries.foldl (processEntry pre sub out fsOk) st).writes =
        st.writes ++
          (entries.filter (okFileWrite pre sub out fsOk)).map
            (entryDest pre sub out) := by
  induction entries with
  | nil => intro st; simp
  | cons e es ih =>
      intro st
      rw [List.foldl_cons, ih, processEntry_writes, List.filter_cons]
      by_cases h : okFileWrite pre sub out fsOk e <;> simp [h]

theorem foldl_warnings (pre sub out : List Char)
    (fsOk : List Char → Bool) (entries : List Entry) :
    ∀ st : ExtractState,
      (entries.foldl (processEntry pre sub out fsOk) st).warnings =
        st.warnings ++
          (entries.filter (failFileWrite pre sub out fsOk)).map Entry.path := by
  induction entries with
  | nil => intro st; simp
  | cons e es ih =>
      intro st
      rw [List.foldl_cons, ih, processEntry_warnings, List.filter_cons]
      by_cases h : failFileWrite pre sub out fsOk e <;> simp [h]

theorem foldl_dirsEnsured (pre sub out : List Char)
    (fsOk : List Char → Bool) (entries : List Entry) :
    ∀ st : ExtractState,
      (entries.foldl (processEntry pre sub out fsOk) st).dirsEnsured =
        st.dirsEnsured ++ ensuredDirs pre sub out entries := by
  induction entries with
  | nil => intro st; simp [ensuredDirs]
  | cons e es ih =>
      intro st
      rw [List.foldl_cons, ih, processEntry_dirsEnsured]
      simp [ensuredDirs]

theorem runExtraction_spec (pre sub out : List Char)
    (fsOk : List Char → Bool) (entries : List Entry) :
    (runExtraction pre sub out fsOk entries).filesExtracted =
        entries.countP (okFileWrite pre sub out fsOk) ∧
    (runExtraction pre sub out fsOk entries).matchedSomething =
        entries.any (inScopeEntry pre sub) ∧
    (runExtraction pre sub out fsOk entries).writes =
        (entries.filter (okFileWrite pre sub out fsOk)).map
          (entryDest pre sub out) ∧
    (runExtraction pre sub out fsOk entries).warnings =
        (entries.filter (failFileWrite pre sub out fsOk)).map Entry.path ∧
    (runExtraction pre sub out fsOk entries).dirsEnsured =
        out :: ensuredDirs pre sub out entries := by
  unfold runExtraction
  refine ⟨?_, ?_, ?_, ?_, ?_⟩
  · rw [foldl_filesExtracted]; simp [initState]
  · rw [foldl_matched]; simp [initState]
  · rw [foldl_writes]; rfl
  · rw [foldl_warnings]; rfl
  · rw [foldl_dirsEnsured]; rfl

end GhDlFolder

namespace GhDlFolder

theorem countP_ok_add_fail (pre sub out : List Char)
    (fsOk : List Char → Bool) (entries : List Entry) :
    entries.countP (okFileWrite pre sub out fsOk) +
        entries.countP (failFileWrite pre sub out fsOk) =
      entries.countP
        (fun e => inScopeEntry pre sub e && (e.kind == EntryType.file)) := by
  induction entries with
  | nil => rfl
  | cons e es ih =>
      simp only [List.countP_cons]
      have h1 : (if okFileWrite pre sub out fsOk e = true then 1 else 0) +
          (if failFileWrite pre sub out fsOk e = true then 1 else 0) =
          (if (inScopeEntry pre sub e && (e.kind == EntryType.file)) = true
           then 1 else 0) := by
        unfold okFileWrite failFileWrite
        by_cases hin : inScopeEntry pre sub e <;>
          by_cases hf : (e.kind == EntryType.file) = true <;>
          by_cases hw : fsOk (entryDest pre sub out e) = true <;>
          simp [hin, hf, hw]
      omega

theorem extractPhase_state (repo branch subfolder out : List Char)
    (fsOk : List Char → Bool) (entries : List Entry) :
    (extractPhase repo branch subfolder out fsOk entries).state =
      runExtraction (repo ++ '-' :: (branch ++ ['/']))
        (stripTrailingSlash subfolder) out fsOk entries := by
  unfold extractPhase
  dsimp only
  split <;> rfl

/-- C1: The Streaming Filter-Extractor judges an entry in scope exactly when
its repo-relative path (the recorded path with the top-level archive prefix
stripped) equals the normalized target subfolder or starts with the
subfolder followed by a slash; out-of-scope entries are drained with no
write, no error, and no counter change; and on the claim's four-entry
archive with subfolder `keep` the run writes exactly output/a.txt and
output/sub/b.txt, creates nothing from skip/c.txt, and ends with
filesExtracted = 2 and matchedAny = true. -/
theorem c1_scope_filter :
    (∀ pre sub path, pre.isPrefixOf path = true →
        inScope sub (removeFirst pre path) =
          ((path.drop pre.length == sub) ||
            (sub ++ ['/']).isPrefixOf (path.drop pre.length))) ∧
    (∀ pre sub out fsOk st e, inScopeEntry pre sub e = false →
        processEntry pre sub out fsOk st e = st) ∧
    downloadFolder ("repo").data ("branch").data ("keep").data
        ("output").data TargetStat.enoent (fun _ => true)
        [⟨("repo-branch/").data, EntryType.directory⟩,
         ⟨("repo-branch/keep/a.txt").data, EntryType.file⟩,
         ⟨("repo-branch/keep/sub/b.txt").data, EntryType.file⟩,
         ⟨("repo-branch/skip/c.txt").data, EntryType.file⟩] =
      ⟨RunResult.success 2,
        ⟨2, true, [("output/a.txt").data, ("output/sub/b.txt").data],
          [("output").data, ("output").data, ("output/sub").data], []⟩⟩ := by
  refine ⟨?_, ?_, by decide⟩
  · intro pre sub path h
    rw [removeFirst_of_isPrefixOf pre path h]
    rfl
  · intro pre sub out fsOk st e h
    exact processEntry_skip pre sub out fsOk st e h

theorem c1_scope_filter_witness :
    (inScope ("keep").data
        (removeFirst ("repo-branch/").data ("repo-branch/keep/a.txt").data) =
      ((("repo-branch/keep/a.txt").data.drop ("repo-branch/").data.length ==
          ("keep").data) ||
        (("keep").data ++ ['/']).isPrefixOf
          (("repo-branch/keep/a.txt").data.drop
            ("repo-branch/").data.length))) ∧
    processEntry ("p/").data ("keep").data ("o").data (fun _ => true)
        (initState ("o").data) ⟨("p/skip/x").data, EntryType.file⟩ =
      initState ("o").data :=
  ⟨c1_scope_filter.1 _ _ _ (by decide),
   c1_scope_filter.2.1 _ _ _ _ _ _ (by decide)⟩

/-- C2: When the stream is exhausted and no entry was ever judged in scope,
the run reports `subfolderNotFound` and a non-zero exit indicator, even
though the guard passed and no per-entry error occurred. -/
theorem c2_subfolder_not_found (repo branch subfolder out : List Char)
    (tstat : TargetStat) (fsOk : List Char → Bool) (entries : List Entry)
    (hguard : targetGuard tstat = none)
    (hnone : ∀ e ∈ entries,
        inScopeEntry (repo ++ '-' :: (branch ++ ['/']))
          (stripTrailingSlash subfolder) e = false) :
    (downloadFolder repo branch subfolder out tstat fsOk entries).result =
        RunResult.subfolderNotFound ∧
    exitIndicator
        (downloadFolder repo branch subfolder out tstat fsOk
          entries).result = 1 := by
  have hm : (runExtraction (repo ++ '-' :: (branch ++ ['/']))
      (stripTrailingSlash subfolder) out fsOk entries).matchedSomething =
        false := by
    rw [(runExtraction_spec _ _ _ _ _).2.1]
    simp only [List.any_eq_false]
    intro e he
    simp [hnone e he]
  simp [downloadFolder, hguard, extractPhase, hm, exitIndicator]

theorem c2_subfolder_not_found_witness :
    (downloadFolder ("r").data ("b").data ("s").data ("o").data
        TargetStat.enoent (fun _ => true)
        [⟨("r-b/x.txt").data, EntryType.file⟩]).result =
      RunResult.subfolderNotFound ∧
    exitIndicator
        (downloadFolder ("r").data ("b").data ("s").data ("o").data
          TargetStat.enoent (fun _ => true)
          [⟨("r-b/x.txt").data, EntryType.file⟩]).result = 1 :=
  c2_subfolder_not_found _ _ _ _ _ _ _ (by decide) (by decide)

/-- C3: A failed write of one in-scope entry is caught, recorded in the
warning list, and does not abort the loop: over any archive,
filesExtracted counts exactly the in-scope file entries whose write
succeeds, the written paths are exactly the destinations of those entries,
the warnings are exactly the in-scope file entries whose write fails, and
successes plus failures account for every in-scope file entry (directories
are never counted). -/
theorem c3_per_entry_failure (pre sub out : List Char)
    (fsOk : List Char → Bool) (entries : List Entry) :
    (runExtraction pre sub out fsOk entries).filesExtracted =
        entries.countP (okFileWrite pre sub out fsOk) ∧
    (runExtraction pre sub out fsOk entries).writes =
        (entries.filter (okFileWrite pre sub out fsOk)).map
          (entryDest pre sub out) ∧
    (runExtraction pre sub out fsOk entries).warnings =
        (entries.filter (failFileWrite pre sub out fsOk)).map Entry.path ∧
    entries.countP (okFileWrite pre sub out fsOk) +
        entries.countP (failFileWrite pre sub out fsOk) =
      entries.countP
        (fun e => inScopeEntry pre sub e && (e.kind == EntryType.file)) := by
  obtain ⟨h1, _, h3, h4, _⟩ := runExtraction_spec pre sub out fsOk entries
  exact ⟨h1, h3, h4, countP_ok_add_fail pre sub out fsOk entries⟩

/-- C4 is refuted at a concrete input: the relative path `keep` (equal to the
subfolder, no trailing separator) is in scope, but line 154's
`replace("keep/", "")` is a no-op on it, so the computed destination is
`output/keep`, not the output directory root that the claim requires. -/
theorem c4_counterexample :
    inScope ("keep").data ("keep").data = true ∧
    destPath ("output").data ("keep").data ("keep").data =
      ("output/keep").data ∧
    ("output/keep").data ≠ ("output").data := ⟨by decide, by decide, by decide⟩

/-- C4 (amended): for an in-scope relative path extending the subfolder past
a slash the destination is the remainder joined onto the output directory;
for the relative path equal to the subfolder itself (no trailing
separator) the removal pattern `sub + "/"` does not occur, so the path is
joined unchanged and the destination is `out/<sub>`, not the output root;
the output root is instead the destination of the directory entry whose
relative path is `sub + "/"`. -/
theorem c4_dest_amended :
    (∀ out sub tail,
        destPath out sub ((sub ++ ['/']) ++ tail) = joinPath out tail) ∧
    (∀ out sub, sub ≠ [] → destPath out sub sub = out ++ '/' :: sub) ∧
    (∀ out sub, destPath out sub (sub ++ ['/']) = out) := by
  refine ⟨?_, ?_, ?_⟩
  · intro out sub tail
    unfold destPath
    rw [removeFirst_of_isPrefixOf _ _
        (List.isPrefixOf_iff_prefix.mpr ⟨tail, rfl⟩)]
    rw [List.drop_left]
  · intro out sub h
    unfold destPath
    rw [removeFirst_of_short _ _ (by simp)]
    simp [joinPath, h]
  · intro out sub
    unfold destPath
    rw [removeFirst_of_isPrefixOf _ _
        (List.isPrefixOf_iff_prefix.mpr ⟨[], List.append_nil _⟩)]
    rw [List.drop_length]
    rfl

theorem c4_dest_amended_witness :
    destPath ("output").data ("keep").data ("keep").data =
      ("output").data ++ '/' :: ("keep").data :=
  c4_dest_amended.2.1 _ _ (by decide)

/-- C5: The guard's probe outcomes are exactly: regular file fails as a
target conflict; non-empty directory fails as a target conflict; empty
directory proceeds; not-found proceeds (and the output directory is the
first directory ensured); any other probe error fails carrying the
underlying message. -/
theorem c5_target_guard :
    targetGuard TargetStat.isFile = some RunResult.targetIsFile ∧
    (∀ n ns, targetGuard (TargetStat.isDir (n :: ns)) =
        some RunResult.targetNotEmpty) ∧
    targetGuard (TargetStat.isDir []) = none ∧
    targetGuard TargetStat.enoent = none ∧
    (∀ m, targetGuard (TargetStat.statError m) =
        some (RunResult.targetProbeError m)) ∧
    (∀ repo branch subfolder out fsOk entries,
        downloadFolder repo branch subfolder out TargetStat.enoent fsOk
            entries =
          extractPhase repo branch subfolder out fsOk entries ∧
        downloadFolder repo branch subfolder out (TargetStat.isDir []) fsOk
            entries =
          extractPhase repo branch subfolder out fsOk entries ∧
        (extractPhase repo branch subfolder out fsOk
            entries).state.dirsEnsured.head? = some out) := by
  refine ⟨rfl, fun n ns => by simp [targetGuard], rfl, rfl, fun m => rfl, ?_⟩
  intro repo branch subfolder out fsOk entries
  refine ⟨rfl, rfl, ?_⟩
  rw [extractPhase_state, (runExtraction_spec _ _ _ _ _).2.2.2.2]
  rfl

/-- C6: With a pre-existing non-empty output directory the run fails as a
target conflict with exit indicator 1 before any extraction effect: the
outcome carries the empty state, so no file write and no directory
creation was issued (and the model contains no delete operation at all). -/
theorem c6_nonempty_target (repo branch subfolder out n : List Char)
    (ns : List (List Char)) (fsOk : List Char → Bool)
    (entries : List Entry) :
    downloadFolder repo branch subfolder out (TargetStat.isDir (n :: ns))
        fsOk entries = ⟨RunResult.targetNotEmpty, emptyState⟩ ∧
    exitIndicator RunResult.targetNotEmpty = 1 ∧
    emptyState.writes = [] ∧ emptyState.dirsEnsured = [] := by
  refine ⟨?_, rfl, rfl, rfl⟩
  simp [downloadFolder, targetGuard]

/-- C9: If some entry is in scope but every in-scope entry is a directory,
the run still succeeds with filesExtracted = 0 and exit indicator 0:
matchedAny is set by directory entries alone and success does not require
any file write. -/
theorem c9_directories_only (repo branch subfolder out : List Char)
    (tstat : TargetStat) (fsOk : List Char → Bool) (entries : List Entry)
    (hguard : targetGuard tstat = none)
    (hdirs : ∀ e ∈ entries,
        inScopeEntry (repo ++ '-' :: (branch ++ ['/']))
            (stripTrailingSlash subfolder) e = true →
          e.kind = EntryType.directory)
    (hsome : entries.any
        (inScopeEntry (repo ++ '-' :: (branch ++ ['/']))
          (stripTrailingSlash subfolder)) = true) :
    (downloadFolder repo branch subfolder out tstat fsOk entries).result =
        RunResult.success 0 ∧
    exitIndicator
        (downloadFolder repo branch subfolder out tstat fsOk
          entries).result = 0 := by
  have hm : (runExtraction (repo ++ '-' :: (branch ++ ['/']))
      (stripTrailingSlash subfolder) out fsOk entries).matchedSomething =
        true := by
    rw [(runExtraction_spec _ _ _ _ _).2.1]; exact hsome
  have hc : (runExtraction (repo ++ '-' :: (branch ++ ['/']))
      (stripTrailingSlash subfolder) out fsOk entries).filesExtracted = 0 := by
    rw [(runExtraction_spec _ _ _ _ _).1]
    rw [List.countP_eq_zero]
    intro e he
    unfold okFileWrite
    by_cases hin : inScopeEntry (repo ++ '-' :: (branch ++ ['/']))
        (stripTrailingSlash subfolder) e = true
    · have := hdirs e he hin
      simp [hin, this]
    · simp [Bool.eq_false_iff.mpr hin]
  simp [downloadFolder, hguard, extractPhase, hm, hc, exitIndicator]

theorem c9_directories_only_witness :
    (downloadFolder ("r").data ("b").data ("s").data ("o").data
        TargetStat.enoent (fun _ => true)
        [⟨("r-b/s/").data, EntryType.directory⟩]).result =
      RunResult.success 0 ∧
    exitIndicator
        (downloadFolder ("r").data ("b").data ("s").data ("o").data
          TargetStat.enoent (fun _ => true)
          [⟨("r-b/s/").data, EntryType.directory⟩]).result = 0 :=
  c9_directories_only _ _ _ _ _ _ _ (by decide) (by decide) (by decide)

end GhDlFolder

namespace GhDlFolder

/-! ## Parser lemmas -/

theorem repoScanL_cons (c : Char) (rest acc : List Char) :
    repoScanL (c :: rest) acc =
      if c = '\n' then none
      else
        match tailMatchL rest with
        | some b => some (acc ++ [c], b)
        | none => repoScanL rest (acc ++ [c]) := rfl

theorem ownerScanL_cons (c : Char) (rest acc : List Char) :
    ownerScanL (c :: rest) acc =
      if c = '\n' then none
      else if rest.head? = some '/' then
        match repoScanL rest.tail [] with
        | some (r, b) => some ⟨acc ++ [c], r, b, none⟩
        | none => ownerScanL rest (acc ++ [c])
      else ownerScanL rest (acc ++ [c]) := rfl

theorem fullRepoSearchL_cons (c : Char) (rest : List Char) :
    fullRepoSearchL (c :: rest) =
      match dropLit ghLit (c :: rest) with
      | some t =>
        match ownerScanL t [] with
        | some p => some p
        | none => fullRepoSearchL rest
      | none => fullRepoSearchL rest := rfl

theorem parse_tree (l : List Char) (p : ParsedL)
    (h : treeMatchL l = some p) : parseGitHubUrlL l = Except.ok p := by
  simp [parseGitHubUrlL, h]

theorem parse_short (l : List Char) (p : ParsedL)
    (h1 : treeMatchL l = none) (h2 : shorthandMatchL l = some p) :
    parseGitHubUrlL l = Except.ok p := by
  simp [parseGitHubUrlL, h1, h2]

theorem parse_full (l : List Char) (p : ParsedL)
    (h1 : treeMatchL l = none) (h2 : shorthandMatchL l = none)
    (h3 : fullRepoSearchL l = some p) :
    parseGitHubUrlL l = Except.ok p := by
  simp [parseGitHubUrlL, h1, h2, h3]

theorem wordclass_ne (a : Char) (h : isWordClass a = true) :
    a ≠ '/' ∧ a ≠ '\n' ∧ a ≠ '#' ∧ a ≠ ':' := by
  refine ⟨?_, ?_, ?_, ?_⟩ <;>
    (intro he; rw [he] at h; exact absurd h (by decide))

theorem short_sub_none (l : List Char) (p : ParsedL)
    (h : shorthandMatchL l = some p) : p.subfolder = none := by
  simp only [shorthandMatchL] at h
  split_ifs at h <;> simp_all
  · exact congrArg ParsedL.subfolder h.symm ▸ rfl
  · exact congrArg ParsedL.subfolder h.symm ▸ rfl

theorem ownerScan_sub_none : ∀ (l acc : List Char) (p : ParsedL),
    ownerScanL l acc = some p → p.subfolder = none := by
  intro l
  induction l with
  | nil => intro acc p h; simp [ownerScanL] at h
  | cons c rest ih =>
      intro acc p h
      rw [ownerScanL_cons] at h
      by_cases hc : c = '\n'
      · rw [if_pos hc] at h; exact absurd h (by simp)
      · rw [if_neg hc] at h
        by_cases hh : rest.head? = some '/'
        · rw [if_pos hh] at h
          rcases hr : repoScanL rest.tail [] with _ | ⟨r, b⟩
          · simp only [hr] at h; exact ih _ _ h
          · simp only [hr, Option.some.injEq] at h
            rw [← h]
        · rw [if_neg hh] at h; exact ih _ _ h

theorem full_sub_none : ∀ (l : List Char) (p : ParsedL),
    fullRepoSearchL l = some p → p.subfolder = none := by
  intro l
  induction l with
  | nil => intro p h; simp [fullRepoSearchL] at h
  | cons c rest ih =>
      intro p h
      rw [fullRepoSearchL_cons] at h
      rcases hd : dropLit ghLit (c :: rest) with _ | t
      · simp only [hd] at h; exact ih _ h
      · simp only [hd] at h
        rcases ho : ownerScanL t [] with _ | q
        · simp only [ho] at h; exact ih _ h
        · simp only [ho, Option.some.injEq] at h
          rw [← h]; exact ownerScan_sub_none t [] q ho

end GhDlFolder

namespace GhDlFolder

theorem tailMatchL_none (l : List Char) (hlen : 4 < l.length)
    (hhash : ∀ a ∈ l, a ≠ '#') : tailMatchL l = none := by
  have h1 : hashTailL l = none := by
    cases l with
    | nil => simp at hlen
    | cons c cs =>
        have : c ≠ '#' := hhash c (by simp)
        simp [hashTailL, this]
  have h2 : hashTailL (l.drop 4) = none := by
    rcases hd : l.drop 4 with _ | ⟨c, cs⟩
    · exfalso
      have := List.length_drop 4 l
      rw [hd] at this
      simp at this
      omega
    · have hc : c ∈ l := List.drop_subset 4 l (by rw [hd]; simp)
      have : c ≠ '#' := hhash c hc
      simp [hashTailL, this]
  by_cases hp : gitLit.isPrefixOf l <;> simp [tailMatchL, hp, h1, h2]

theorem tailMatchL_hash_none (d : Char) (R b : List Char)
    (hd1 : d ≠ '.') (hd2 : d ≠ '#') :
    tailMatchL ((d :: R) ++ '#' :: b) = none := by
  have hp : gitLit.isPrefixOf ((d :: R) ++ '#' :: b) = false := by
    rcases hb : gitLit.isPrefixOf ((d :: R) ++ '#' :: b) with _ | _
    · rfl
    · exfalso
      rcases List.isPrefixOf_iff_prefix.mp hb with ⟨t, ht⟩
      rw [gitLit] at ht
      injection ht with h1 _
      exact hd1 h1.symm
  unfold tailMatchL
  rw [hp]
  simp [hashTailL, hd2]

theorem repoScan_git : ∀ (R : List Char), R ≠ [] →
    (∀ a ∈ R, isWordClass a = true) → ∀ acc,
    repoScanL (R ++ gitLit) acc = some (acc ++ R, none) := by
  intro R
  induction R with
  | nil => intro h; exact absurd rfl h
  | cons c R ih =>
      intro _ hR acc
      rw [List.cons_append, repoScanL_cons]
      have hc : c ≠ '\n' := by
        have := hR c (by simp)
        intro h; rw [h] at this; exact absurd this (by decide)
      rw [if_neg hc]
      cases R with
      | nil =>
          have ht : tailMatchL gitLit = some none := by decide
          simp only [List.nil_append, ht]
      | cons c2 R2 =>
          have ht : tailMatchL ((c2 :: R2) ++ gitLit) = none := by
            apply tailMatchL_none
            · simp [gitLit]
            · intro a ha
              rcases List.mem_append.mp ha with h | h
              · have := hR a (by simp [h])
                intro hh; rw [hh] at this; exact absurd this (by decide)
              · intro hh; subst hh; revert h; decide
          simp only [ht]
          rw [ih (by simp) (fun a ha => hR a (by simp [ha])) (acc ++ [c])]
          simp

theorem repoScan_hash : ∀ (R : List Char), R ≠ [] →
    (∀ a ∈ R, isWordClass a = true ∧ a ≠ '.') →
    ∀ (b : List Char), b ≠ [] → b.all notNewline = true → ∀ acc,
    repoScanL (R ++ '#' :: b) acc = some (acc ++ R, some b) := by
  intro R
  induction R with
  | nil => intro h; exact absurd rfl h
  | cons c R ih =>
      intro _ hR b hb1 hb2 acc
      rw [List.cons_append, repoScanL_cons]
      have hc : c ≠ '\n' := by
        have := (hR c (by simp)).1
        intro h; rw [h] at this; exact absurd this (by decide)
      rw [if_neg hc]
      cases R with
      | nil =>
          have ht : tailMatchL ('#' :: b) = some (some b) := by
            have hp : gitLit.isPrefixOf ('#' :: b) = false := by
              simp [gitLit, List.isPrefixOf]
            simp [tailMatchL, hp, hashTailL, hb1, hb2]
          simp only [List.nil_append, ht]
      | cons c2 R2 =>
          have hc2 := hR c2 (by simp)
          have hc2hash : c2 ≠ '#' := by
            have := hc2.1
            intro hh; rw [hh] at this; exact absurd this (by decide)
          have ht := tailMatchL_hash_none c2 R2 b hc2.2 hc2hash
          simp only [ht]
          rw [ih (by simp) (fun a ha => hR a (by simp [ha])) b hb1 hb2
            (acc ++ [c])]
          simp

theorem repoScan_isSome : ∀ (l : List Char), l ≠ [] →
    (∀ a ∈ l, a ≠ '\n') → ∀ acc,
    (repoScanL l acc).isSome = true := by
  intro l
  induction l with
  | nil => intro h; exact absurd rfl h
  | cons c rest ih =>
      intro _ hl acc
      rw [repoScanL_cons, if_neg (hl c (by simp))]
      rcases ht : tailMatchL rest with _ | b
      · have hrest : rest ≠ [] := by
          intro he; rw [he] at ht; exact absurd ht (by decide)
        exact ih hrest (fun a ha => hl a (by simp [ha])) (acc ++ [c])
      · rfl

theorem ownerScan_exact (M r : List Char) (b : Option (List Char))
    (h : repoScanL M [] = some (r, b)) :
    ∀ (O : List Char), O ≠ [] → (∀ a ∈ O, a ≠ '/' ∧ a ≠ '\n') →
    ∀ acc, ownerScanL (O ++ '/' :: M) acc = some ⟨acc ++ O, r, b, none⟩ := by
  intro O
  induction O with
  | nil => intro h'; exact absurd rfl h'
  | cons a O ih =>
      intro _ hO acc
      rw [List.cons_append, ownerScanL_cons]
      rw [if_neg (hO a (by simp)).2]
      cases O with
      | nil =>
          simp only [List.nil_append, List.head?_cons, List.tail_cons, h]
          rfl
      | cons a2 O2 =>
          have ha2 : a2 ≠ '/' := (hO a2 (by simp)).1
          simp only [List.cons_append, List.head?_cons]
          rw [if_neg (by simp [ha2])]
          have ih' := ih (by simp) (fun x hx => hO x (by simp [hx]))
            (acc ++ [a])
          rw [List.cons_append] at ih'
          rw [ih']
          simp

theorem fullRepo_at_head (X : List Char) (p : ParsedL)
    (h : ownerScanL X [] = some p) :
    fullRepoSearchL (ghLit ++ X) = some p := by
  have hd : dropLit ghLit (ghLit ++ X) = some X := dropLit_append ghLit X
  show fullRepoSearchL
      ('g' :: (['i','t','h','u','b','.','c','o','m','/'] ++ X)) = some p
  rw [fullRepoSearchL_cons]
  have hd2 : dropLit ghLit
      ('g' :: (['i','t','h','u','b','.','c','o','m','/'] ++ X)) = some X := hd
  simp only [hd2, h]

theorem fullRepo_isSome_mono : ∀ (P l : List Char),
    (fullRepoSearchL l).isSome = true →
    (fullRepoSearchL (P ++ l)).isSome = true := by
  intro P
  induction P with
  | nil => intro l h; exact h
  | cons c P ih =>
      intro l h
      rw [List.cons_append, fullRepoSearchL_cons]
      rcases hd : dropLit ghLit (c :: (P ++ l)) with _ | t
      · simp only []
        exact ih l h
      · simp only []
        rcases ho : ownerScanL t [] with _ | q
        · exact ih l h
        · simp

end GhDlFolder

namespace GhDlFolder

theorem tree_parse (O R B sub : List Char)
    (hO : O ≠ []) (hR : R ≠ []) (hB : B ≠ []) (hsub : sub ≠ [])
    (hO2 : ∀ c ∈ O, c ≠ '/') (hR2 : ∀ c ∈ R, c ≠ '/')
    (hB2 : ∀ c ∈ B, c ≠ '/') (hsub2 : sub.all notNewline = true) :
    treeMatchL (httpsLit ++ (O ++ '/' :: (R ++ '/' :: (treeLit ++
        (B ++ '/' :: sub))))) = some ⟨O, R, some B, some sub⟩ := by
  have hslash : ((('/' : Char)) != '/') = false := by decide
  have hO' : ∀ a ∈ O, (a != '/') = true := fun a ha => by
    simp [bne_iff_ne, hO2 a ha]
  have hR' : ∀ a ∈ R, (a != '/') = true := fun a ha => by
    simp [bne_iff_ne, hR2 a ha]
  have hB' : ∀ a ∈ B, (a != '/') = true := fun a ha => by
    simp [bne_iff_ne, hB2 a ha]
  have htwO := takeWhile_app (fun c => c != '/') O '/'
    (R ++ '/' :: (treeLit ++ (B ++ '/' :: sub))) hO' hslash
  have htwR := takeWhile_app (fun c => c != '/') R '/'
    (treeLit ++ (B ++ '/' :: sub)) hR' hslash
  have htwB := takeWhile_app (fun c => c != '/') B '/' sub hB' hslash
  simp [treeMatchL, dropLit_append, htwO, htwR, htwB, List.drop_left,
    hO, hR, hB, hsub, hsub2]

theorem tree_none_g (X : List Char) : treeMatchL (ghLit ++ X) = none := by
  have hd : dropLit httpsLit (ghLit ++ X) = none := by
    show (if ('g' : Char) = 'h' then
        dropLit ['t','t','p','s',':','/','/','g','i','t','h','u','b','.','c','o','m','/']
          (['i','t','h','u','b','.','c','o','m','/'] ++ X)
      else none) = none
    rw [if_neg (by decide)]
  simp [treeMatchL, hd]

theorem dropLit_https_none (O M : List Char) (hne : O ≠ [])
    (hO : ∀ a ∈ O, isWordClass a = true) :
    dropLit httpsLit (O ++ '/' :: M) = none := by
  rcases O with _ | ⟨a, O⟩
  · exact absurd rfl hne
  rcases O with _ | ⟨b, O⟩
  · simp [httpsLit, dropLit]
  rcases O with _ | ⟨c, O⟩
  · simp [httpsLit, dropLit]
  rcases O with _ | ⟨d, O⟩
  · simp [httpsLit, dropLit]
  rcases O with _ | ⟨e, O⟩
  · simp [httpsLit, dropLit]
  rcases O with _ | ⟨f, O⟩
  · simp [httpsLit, dropLit]
  · have hf : f ≠ ':' := by
      intro h
      have := hO f (by simp)
      rw [h] at this
      exact absurd this (by decide)
    simp [httpsLit, dropLit, hf]

theorem tree_none_word (O M : List Char) (hne : O ≠ [])
    (hO : ∀ a ∈ O, isWordClass a = true) :
    treeMatchL (O ++ '/' :: M) = none := by
  simp [treeMatchL, dropLit_https_none O M hne hO]

theorem short_full (O R : List Char) (hO1 : O ≠ []) (hR1 : R ≠ [])
    (hO : ∀ a ∈ O, isWordClass a = true)
    (hR : ∀ a ∈ R, isWordClass a = true) :
    shorthandMatchL (O ++ '/' :: R) = some ⟨O, R, none, none⟩ := by
  have hslash : isWordClass '/' = false := by decide
  have htwO : (O ++ '/' :: R).takeWhile isWordClass = O :=
    takeWhile_app isWordClass O '/' R hO hslash
  have htwR : R.takeWhile isWordClass = R := takeWhile_full isWordClass R hR
  simp [shorthandMatchL, htwO, htwR, List.drop_left, List.drop_length,
    hO1, hR1]

theorem short_hash (O R b : List Char) (hO1 : O ≠ []) (hR1 : R ≠ [])
    (hO : ∀ a ∈ O, isWordClass a = true)
    (hR : ∀ a ∈ R, isWordClass a = true)
    (hb1 : b ≠ []) (hb2 : b.all notNewline = true) :
    shorthandMatchL (O ++ '/' :: (R ++ '#' :: b)) =
      some ⟨O, R, some b, none⟩ := by
  have hslash : isWordClass '/' = false := by decide
  have hhash : isWordClass '#' = false := by decide
  have htwO : (O ++ '/' :: (R ++ '#' :: b)).takeWhile isWordClass = O :=
    takeWhile_app isWordClass O '/' (R ++ '#' :: b) hO hslash
  have htwR : (R ++ '#' :: b).takeWhile isWordClass = R :=
    takeWhile_app isWordClass R '#' b hR hhash
  simp [shorthandMatchL, htwO, htwR, List.drop_left, hO1, hR1, hb1, hb2]

theorem short_none_gh (O M : List Char)
    (hO : ∀ a ∈ O, isWordClass a = true) :
    shorthandMatchL (ghWord ++ '/' :: (O ++ '/' :: M)) = none := by
  have hslash : isWordClass '/' = false := by decide
  have hgh : ∀ a ∈ ghWord, isWordClass a = true := by decide
  have htw1 : (ghWord ++ '/' :: (O ++ '/' :: M)).takeWhile isWordClass =
      ghWord := takeWhile_app isWordClass ghWord '/' (O ++ '/' :: M) hgh
        hslash
  have htwO : (O ++ '/' :: M).takeWhile isWordClass = O :=
    takeWhile_app isWordClass O '/' M hO hslash
  simp only [shorthandMatchL, htw1, htwO, List.drop_left, List.head?_cons,
    List.tail_cons]
  rw [if_pos ⟨by decide, trivial⟩]
  rcases O with _ | ⟨o1, O2⟩
  · rw [if_pos rfl]
  · rw [if_neg (by simp), if_neg (by simp), if_neg (by decide)]

end GhDlFolder

namespace GhDlFolder

/-- C7: The Reference Parser tries the tree-URL pattern, then the shorthand
pattern, then the generic pattern, the first matching pattern winning and
patterns never combined; every tree URL https://github.com/O/R/tree/B/sub
parses to owner O, repo R, branch B, subfolder sub; and a subfolder is
present in the result only when the tree-URL pattern matched. -/
theorem c7_parser_order :
    (∀ O R B sub, O ≠ [] → R ≠ [] → B ≠ [] → sub ≠ [] →
        (∀ c ∈ O, c ≠ '/') → (∀ c ∈ R, c ≠ '/') → (∀ c ∈ B, c ≠ '/') →
        sub.all notNewline = true →
        parseGitHubUrlL (httpsLit ++ (O ++ '/' :: (R ++ '/' :: (treeLit ++
            (B ++ '/' :: sub))))) = Except.ok ⟨O, R, some B, some sub⟩) ∧
    (∀ l p, treeMatchL l = some p → parseGitHubUrlL l = Except.ok p) ∧
    (∀ l p, treeMatchL l = none → shorthandMatchL l = some p →
        parseGitHubUrlL l = Except.ok p) ∧
    (∀ l p, treeMatchL l = none → shorthandMatchL l = none →
        fullRepoSearchL l = some p → parseGitHubUrlL l = Except.ok p) ∧
    (∀ l, treeMatchL l = none → shorthandMatchL l = none →
        fullRepoSearchL l = none →
        parseGitHubUrlL l = Except.error invalidMsg) ∧
    (∀ l p, parseGitHubUrlL l = Except.ok p → p.subfolder ≠ none →
        treeMatchL l = some p) := by
  refine ⟨?_, parse_tree, parse_short, parse_full, ?_, ?_⟩
  · intro O R B sub h1 h2 h3 h4 h5 h6 h7 h8
    exact parse_tree _ _ (tree_parse O R B sub h1 h2 h3 h4 h5 h6 h7 h8)
  · intro l h1 h2 h3
    simp [parseGitHubUrlL, h1, h2, h3]
  · intro l p h hs
    rcases ht : treeMatchL l with _ | q
    · rcases hsh : shorthandMatchL l with _ | q
      · rcases hf : fullRepoSearchL l with _ | q
        · have herr : parseGitHubUrlL l = Except.error invalidMsg := by
            simp [parseGitHubUrlL, ht, hsh, hf]
          rw [herr] at h
          exact absurd h (by simp)
        · rw [parse_full l q ht hsh hf] at h
          have hq : q = p := by injection h
          subst hq
          exact absurd (full_sub_none l q hf) hs
      · rw [parse_short l q ht hsh] at h
        have hq : q = p := by injection h
        subst hq
        exact absurd (short_sub_none l q hsh) hs
    · rw [parse_tree l q ht] at h
      have hq : q = p := by injection h
      subst hq
      rfl

theorem c7_parser_order_witness :
    parseGitHubUrlL (httpsLit ++ (("o").data ++ '/' :: (("r").data ++ '/' ::
        (treeLit ++ (("b").data ++ '/' :: ("sub/path").data))))) =
      Except.ok ⟨("o").data, ("r").data, some ("b").data,
        some ("sub/path").data⟩ :=
  c7_parser_order.1 _ _ _ _ (by decide) (by decide) (by decide) (by decide)
    (by decide) (by decide) (by decide) (by decide)

/-- C8 is refuted at a concrete input: for `a/b.git` the shorthand pattern
matches first and its repo class `[\w.-]+` swallows `.git`, so the parsed
repo is `b.git` — the trailing `.git` is not stripped. -/
theorem c8_counterexample :
    parseGitHubUrl "a/b.git" = Except.ok ⟨"a", "b.git", none, none⟩ ∧
    ("b.git" : String) ≠ "b" := ⟨rfl, by decide⟩

/-- C8 (amended): trailing `.git` is stripped from the repo name only when
the generic github.com pattern is the one that matches; when the shorthand
pattern matches, `.git` stays part of the repo name.  A fragment after `#`
is treated as the branch in the shorthand and generic patterns, but in a
tree URL `#` has no special meaning and ends up inside the subfolder. -/
theorem c8_git_hash_amended :
    (∀ O R, O ≠ [] → R ≠ [] → (∀ a ∈ O, isWordClass a = true) →
        (∀ a ∈ R, isWordClass a = true) →
        parseGitHubUrlL (ghLit ++ (O ++ '/' :: (R ++ gitLit))) =
          Except.ok ⟨O, R, none, none⟩) ∧
    (∀ O R, O ≠ [] → R ≠ [] → (∀ a ∈ O, isWordClass a = true) →
        (∀ a ∈ R, isWordClass a = true) →
        parseGitHubUrlL (O ++ '/' :: (R ++ gitLit)) =
          Except.ok ⟨O, R ++ gitLit, none, none⟩) ∧
    (∀ O R b, O ≠ [] → R ≠ [] → (∀ a ∈ O, isWordClass a = true) →
        (∀ a ∈ R, isWordClass a = true) → b ≠ [] →
        b.all notNewline = true →
        parseGitHubUrlL (O ++ '/' :: (R ++ '#' :: b)) =
          Except.ok ⟨O, R, some b, none⟩) ∧
    (∀ O R b, O ≠ [] → R ≠ [] → (∀ a ∈ O, isWordClass a = true) →
        (∀ a ∈ R, isWordClass a = true ∧ a ≠ '.') → b ≠ [] →
        b.all notNewline = true →
        parseGitHubUrlL (ghLit ++ (O ++ '/' :: (R ++ '#' :: b))) =
          Except.ok ⟨O, R, some b, none⟩) ∧
    (∀ O R B s f, O ≠ [] → R ≠ [] → B ≠ [] →
        (∀ c ∈ O, c ≠ '/') → (∀ c ∈ R, c ≠ '/') → (∀ c ∈ B, c ≠ '/') →
        s.all notNewline = true → f.all notNewline = true →
        parseGitHubUrlL (httpsLit ++ (O ++ '/' :: (R ++ '/' :: (treeLit ++
            (B ++ '/' :: (s ++ '#' :: f)))))) =
          Except.ok ⟨O, R, some B, some (s ++ '#' :: f)⟩) := by
  have hgitwc : ∀ a ∈ gitLit, isWordClass a = true := by decide
  refine ⟨?_, ?_, ?_, ?_, ?_⟩
  · intro O R hO1 hR1 hO hR
    have ht : treeMatchL (ghLit ++ (O ++ '/' :: (R ++ gitLit))) = none :=
      tree_none_g _
    have hs : shorthandMatchL (ghLit ++ (O ++ '/' :: (R ++ gitLit))) =
        none := short_none_gh O (R ++ gitLit) hO
    have hrepo := repoScan_git R hR1 hR []
    rw [List.nil_append] at hrepo
    have howner := ownerScan_exact (R ++ gitLit) R none hrepo O hO1
      (fun a ha => ⟨(wordclass_ne a (hO a ha)).1,
        (wordclass_ne a (hO a ha)).2.1⟩) []
    rw [List.nil_append] at howner
    exact parse_full _ _ ht hs (fullRepo_at_head _ _ howner)
  · intro O R hO1 hR1 hO hR
    have ht : treeMatchL (O ++ '/' :: (R ++ gitLit)) = none :=
      tree_none_word O _ hO1 hO
    have hRg : ∀ a ∈ R ++ gitLit, isWordClass a = true := by
      intro a ha
      rcases List.mem_append.mp ha with h | h
      · exact hR a h
      · exact hgitwc a h
    have hs := short_full O (R ++ gitLit) hO1 (by simp [gitLit]) hO hRg
    exact parse_short _ _ ht hs
  · intro O R b hO1 hR1 hO hR hb1 hb2
    have ht : treeMatchL (O ++ '/' :: (R ++ '#' :: b)) = none :=
      tree_none_word O _ hO1 hO
    have hs := short_hash O R b hO1 hR1 hO hR hb1 hb2
    exact parse_short _ _ ht hs
  · intro O R b hO1 hR1 hO hR hb1 hb2
    have ht : treeMatchL (ghLit ++ (O ++ '/' :: (R ++ '#' :: b))) = none :=
      tree_none_g _
    have hs : shorthandMatchL (ghLit ++ (O ++ '/' :: (R ++ '#' :: b))) =
        none := short_none_gh O (R ++ '#' :: b) hO
    have hrepo := repoScan_hash R hR1 hR b hb1 hb2 []
    rw [List.nil_append] at hrepo
    have howner := ownerScan_exact (R ++ '#' :: b) R (some b) hrepo O hO1
      (fun a ha => ⟨(wordclass_ne a (hO a ha)).1,
        (wordclass_ne a (hO a ha)).2.1⟩) []
    rw [List.nil_append] at howner
    exact parse_full _ _ ht hs (fullRepo_at_head _ _ howner)
  · intro O R B s f hO1 hR1 hB1 hO hR hB hsall hfall
    have hsub1 : s ++ '#' :: f ≠ [] := by simp
    have hsub2 : (s ++ '#' :: f).all notNewline = true := by
      simp [List.all_append, List.all_cons, hsall, hfall, notNewline]
    exact parse_tree _ _
      (tree_parse O R B (s ++ '#' :: f) hO1 hR1 hB1 hsub1 hO hR hB hsub2)

theorem c8_git_hash_amended_witness :
    parseGitHubUrlL (("a").data ++ '/' :: (("b").data ++ gitLit)) =
      Except.ok ⟨("a").data, ("b").data ++ gitLit, none, none⟩ ∧
    parseGitHubUrlL (ghLit ++ (("a").data ++ '/' :: (("b").data ++
        gitLit))) = Except.ok ⟨("a").data, ("b").data, none, none⟩ ∧
    parseGitHubUrlL (ghLit ++ (("a").data ++ '/' :: (("b").data ++ '#' ::
        ("x").data))) =
      Except.ok ⟨("a").data, ("b").data, some ("x").data, none⟩ :=
  ⟨c8_git_hash_amended.2.1 _ _ (by decide) (by decide) (by decide)
      (by decide),
   c8_git_hash_amended.1 _ _ (by decide) (by decide) (by decide)
      (by decide),
   c8_git_hash_amended.2.2.2.1 _ _ _ (by decide) (by decide) (by decide)
      (by decide) (by decide) (by decide)⟩

/-- C10 is refuted at a concrete input: "a/b#github.com/c/d" ends with the
substring github.com/c/d, yet it does not return owner "c" and repo "d" —
the shorthand pattern matches first, returning owner "a", repo "b", with
the whole tail after `#` as the branch. -/
theorem c10_counterexample :
    parseGitHubUrl "a/b#github.com/c/d" =
      Except.ok ⟨"a", "b", some "github.com/c/d", none⟩ ∧
    ¬(("a" : String) = "c" ∧ ("b" : String) = "d") := ⟨rfl, by decide⟩

/-- C10 (amended): the generic pattern is not anchored, so every string of
the form P ++ "github.com/" ++ O ++ "/" ++ R ++ T — whatever characters P
precede the github.com occurrence, O and R nonempty slash- and
newline-free, T any newline-free suffix (covering optional `.git` and/or
`#branch`) — parses successfully rather than failing with the
invalid-reference error; the returned owner and repo are those captured by
the first matching pattern (tree or shorthand may take precedence, and the
generic pattern captures at the leftmost github.com occurrence with lazy
groups), so they need not be the owner and repo of the ending substring. -/
theorem c10_unanchored (P O R T : List Char) (hO1 : O ≠ []) (hR1 : R ≠ [])
    (hO : ∀ a ∈ O, a ≠ '/' ∧ a ≠ '\n') (hR : ∀ a ∈ R, a ≠ '\n')
    (hT : ∀ a ∈ T, a ≠ '\n') :
    ∃ p, parseGitHubUrlL (P ++ (ghLit ++ (O ++ '/' :: (R ++ T)))) =
      Except.ok p := by
  have hM1 : R ++ T ≠ [] := by
    intro h
    exact hR1 (List.append_eq_nil.mp h).1
  have hM2 : ∀ a ∈ R ++ T, a ≠ '\n' := by
    intro a ha
    rcases List.mem_append.mp ha with h | h
    · exact hR a h
    · exact hT a h
  have hsome := repoScan_isSome (R ++ T) hM1 hM2 []
  obtain ⟨⟨r, b⟩, hr⟩ := Option.isSome_iff_exists.mp hsome
  have howner := ownerScan_exact (R ++ T) r b hr O hO1 hO []
  rw [List.nil_append] at howner
  have hfull := fullRepo_at_head _ _ howner
  have hsome2 : (fullRepoSearchL (P ++ (ghLit ++ (O ++ '/' ::
      (R ++ T))))).isSome = true :=
    fullRepo_isSome_mono P _ (by rw [hfull]; rfl)
  rcases ht : treeMatchL (P ++ (ghLit ++ (O ++ '/' :: (R ++ T)))) with _ | p1
  · rcases hsh : shorthandMatchL (P ++ (ghLit ++ (O ++ '/' :: (R ++ T))))
      with _ | p2
    · obtain ⟨p3, hf⟩ := Option.isSome_iff_exists.mp hsome2
      exact ⟨p3, parse_full _ _ ht hsh hf⟩
    · exact ⟨p2, parse_short _ _ ht hsh⟩
  · exact ⟨p1, parse_tree _ _ ht⟩

theorem c10_unanchored_witness :
    ∃ p, parseGitHubUrlL (("x!").data ++ (ghLit ++ (("a").data ++ '/' ::
        (("b").data ++ (".git").data)))) = Except.ok p :=
  c10_unanchored _ _ _ _ (by decide) (by decide) (by decide) (by decide)
    (by decide)

end GhDlFolder
